import Mathlib

/-!
Verification of the small_robots_archive core against its specification.

The definitions below are a shallow embedding of the Rust sources:
* `src/parser/src/lib.rs` (robot-post parser),
* `src/datasource/mastodon/src/html.rs` (HTML sanitizer and serializer),
* `src/datasource/mastodon/src/ident.rs` (compact identifier).

Rust machine integers are modelled as `Int` with explicit wrapping
(`wrap32` below) at the operations where two's-complement overflow is
reachable; Rust's truncating division and remainder on `i32` are
`Int.tdiv` and `Int.tmod`.  Strings are modelled as `List Char`.
Unicode table lookups performed by external crates
(`unicode-normalization`, `unidecode`, the `regex` crate's Unicode
character classes, `char::to_lowercase`) are kept abstract as explicit
parameters, so every theorem quantifies over them; ASCII instances are
supplied for concrete evaluation.
-/

/-! ## 32-bit integer model -/

/-- Largest `i32` value, `2^31 - 1`. -/
def i32max : Int := 2147483647

/-- Smallest `i32` value, `-2^31`. -/
def i32min : Int := -2147483648

/-- Two's-complement wrapping into the `i32` range, the behaviour of Rust
release-mode arithmetic on overflow. -/
def wrap32 (v : Int) : Int := (v + 2147483648) % 4294967296 - 2147483648

/-- A value inside the `i32` range. -/
def inI32 (v : Int) : Prop := i32min ≤ v ∧ v ≤ i32max

instance (v : Int) : Decidable (inI32 v) := by unfold inI32; infer_instance

/-! ## Number parsing (`parse_numbers` in `src/parser/src/lib.rs`)

`parse_numbers` splits the post at the first `)` and scans the part before
it character by character, accumulating ASCII digit runs and parsing each
run with `str::parse::<i32>` (a run whose value exceeds `i32::MAX` fails,
and the failure propagates with `?` so the whole parse yields `None`). -/

/-- Numeric value of a list of ASCII digit characters
(most significant first), as computed by `str::parse`. -/
def digitsVal (buf : List Char) : Int :=
  buf.foldl (fun acc c => acc * 10 + (Int.ofNat c.toNat - 48)) 0

/-- `parse_number` from `parse_numbers`: parse the buffered digit run as an
`i32` and apply the pending sign.  `str::parse::<i32>` on a pure digit run
succeeds exactly when the value is at most `i32::MAX`. -/
def parseNumberTok (buf : List Char) (neg : Bool) : Option Int :=
  if buf ≠ [] ∧ buf.all Char.isDigit ∧ digitsVal buf ≤ i32max then
    some (digitsVal buf * if neg then -1 else 1)
  else
    none

/-- Flush the digit buffer into the output list, as the Rust loop does at a
delimiter and at the end of the segment. -/
def flushBuf (ns : List Int) (buf : List Char) (neg : Bool) :
    Option (List Int) :=
  if buf = [] then some ns
  else (parseNumberTok buf neg).map (fun n => ns ++ [n])

/-- The character-by-character scan of the numbers segment.  State mirrors
the Rust local variables: collected numbers `ns`, digit buffer `buf`, the
pending-negative flag `neg`, `negEnabled` and `foundDigit`. -/
def scanNumbers : List Char → List Int → List Char → Bool → Bool → Bool →
    Option (List Int)
  | [], ns, buf, neg, _, _ => flushBuf ns buf neg
  | c :: cs, ns, buf, neg, negEnabled, foundDigit =>
    if c.isDigit then
      scanNumbers cs ns (buf ++ [c]) neg false true
    else
      match flushBuf ns buf neg with
      | none => none
      | some ns1 =>
        if c = '-' then
          scanNumbers cs ns1 [] (if negEnabled then true else neg)
            negEnabled foundDigit
        else
          if foundDigit then scanNumbers cs ns1 [] false true foundDigit
          else none

/-! ## Range inference (`numbers_range` in `src/parser/src/lib.rs`) -/

/-- The `while x > 0 { major /= 10; dps += 1; x /= 10 }` loop.  The fuel is
`x.toNat`, an upper bound on the iteration count (each iteration divides a
positive `x` by ten). -/
def botLoopAux : Nat → Int → Int → Nat → Int × Nat
  | 0, major, _, dps => (major, dps)
  | fuel + 1, major, x, dps =>
    if 0 < x then botLoopAux fuel (major.tdiv 10) (x.tdiv 10) (dps + 1)
    else (major, dps)

/-- Run the digit-count loop of `numbers_range` on anchor `major` and
abbreviation `x`. -/
def botLoop (major x : Int) : Int × Nat := botLoopAux x.toNat major x 0

/-- The `for _ in 0..dps { major *= 10 }` loop, with `i32` wrapping on the
multiplication. -/
def mulBack (major : Int) : Nat → Int
  | 0 => major
  | d + 1 => mulBack (wrap32 (major * 10)) d

/-- `i32::abs`, which wraps on `i32::MIN` in release mode. -/
def i32abs (x : Int) : Int := wrap32 |x|

/-- The per-element transformation of `numbers_range`: a subsequent number
`n` that is positive and smaller than `abs(first)` is treated as an
abbreviation and reconstructed from the anchor `first`; any other `n` is
used as-is.  The final addition is `i32` arithmetic, hence wrapped. -/
def reconstructStep (first n : Int) : Int :=
  if 0 < n ∧ n < i32abs first then
    let p := botLoop first n
    wrap32 (mulBack p.1 p.2 + n * first.sign)
  else n

/-- The `if n < min_n { min_n = n } else if n > max_n { max_n = n }`
accumulation of `numbers_range`. -/
def minMaxFold (rest : List Int) (first : Int) : Int × Int :=
  rest.foldl
    (fun acc n =>
      let n1 := reconstructStep first n
      if n1 < acc.1 then (n1, acc.2)
      else if acc.2 < n1 then (acc.1, n1) else acc)
    (first, first)

/-- `numbers_range`: infer an inclusive range (modelled as a pair
`(min, max)`) from a list of numbers taken from human-written text. -/
def numbersRange (ns : List Int) : Option (Int × Int) :=
  match ns with
  | [] => none
  | [first] => some (first, first)
  | first :: rest => some (minMaxFold rest first)

/-- Whitespace-trimming helpers (`str::trim` / `str::trim_start`), with
the Unicode `White_Space` predicate abstract as `isSpace`. -/
def trimStart (isSpace : Char → Bool) (s : List Char) : List Char :=
  s.dropWhile isSpace

def trimEnd (isSpace : Char → Bool) (s : List Char) : List Char :=
  (s.reverse.dropWhile isSpace).reverse

def trimBoth (isSpace : Char → Bool) (s : List Char) : List Char :=
  trimEnd isSpace (trimStart isSpace s)

/-- `str::split_once`: split at the first occurrence of `sep`, yielding
the parts before and after it. -/
def splitOnce (sep : Char) : List Char → Option (List Char × List Char)
  | [] => none
  | c :: cs =>
    if c = sep then some ([], cs)
    else (splitOnce sep cs).map (fun p => (c :: p.1, p.2))

/-! Specification-side helpers for the range-inference claim. -/

/-- Fuel-driven count of iterations of `m /= 10` needed to reach `0`. -/
def digitsLenGo : Nat → Nat → Nat
  | 0, _ => 0
  | fuel + 1, m => if m = 0 then 0 else digitsLenGo fuel (m / 10) + 1

/-- The number of decimal digits of `n` (`0` for `n = 0`). -/
def digitsLen (n : Nat) : Nat := digitsLenGo n n

/-- Iterated truncating division by ten, the effect of the
`major /= 10` loop body. -/
def tdivPow : Nat → Int → Int
  | 0, a => a
  | k + 1, a => tdivPow k (a.tdiv 10)

/-- The reconstruction described by the specification: take the anchor
`first`, zero its lowest `digitsLen n` decimal digits, and add `n` with
the sign of `first`. -/
def specReconstruct (first n : Int) : Int :=
  first - first.tmod (10 ^ digitsLen n.toNat) + n * first.sign

/-- The per-element value the specification expects `numbers_range` to
track: a positive `n` smaller than `|first|` is replaced by its
reconstruction, any other `n` is used as-is. -/
def specAdjust (first n : Int) : Int :=
  if 0 < n ∧ n < |first| then specReconstruct first n else n

/-- `parse_numbers`: split at the first `)`, trim, scan the numbers
segment, and infer the range.  Returns the remainder after the `)`
(leading whitespace removed) together with the inferred range. -/
def parseNumbers (isSpace : Char → Bool) (s : List Char) :
    Option (List Char × (Int × Int)) :=
  match splitOnce ')' s with
  | none => none
  | some (before, after) =>
    let seg := trimBoth isSpace before
    let rem := trimStart isSpace after
    match scanNumbers seg [] [] false true false with
    | none => none
    | some ns =>
      match numbersRange ns with
      | none => none
      | some r => some (rem, r)

/-! ## Robot names (`parse_names`, `parse_cw`, `parse_group`)

The `regex` crate's Unicode character classes (`\w`, `\s`) and
`char::to_lowercase` are external tables; they are abstracted as a
`CharClasses` parameter.  The two patterns used by `parse_names` and the
content-warning pattern of `parse_cw` are implemented directly with the
crate's leftmost-first, greedy-with-backtracking matching discipline. -/

/-- The Unicode character classes used by the parser's regular
expressions, kept abstract. -/
structure CharClasses where
  /-- regex `\w` / Rust word character. -/
  isWord : Char → Bool
  /-- regex `\s` / `char::is_whitespace` (`White_Space`). -/
  isSpace : Char → Bool
  /-- `char::to_lowercase` (possibly multi-character). -/
  lower : Char → List Char

/-- A character matched by `[^\w\s]` (decorative punctuation inside a
"bot" token). -/
def isJunk (cc : CharClasses) (c : Char) : Bool :=
  !cc.isWord c && !cc.isSpace c

/-- The components of the name of a robot
(`RobotName` in `src/parser/src/lib.rs`).  `pre` and `suf` are the
`prefix` and `suffix` fields of the Rust struct. -/
structure RobotName where
  pre : List Char
  suf : List Char
  plural : Option (List Char)
deriving Repr, DecidableEq

/-- The name and number of a single robot. -/
structure Robot where
  number : Int
  name : RobotName
deriving Repr, DecidableEq

/-- The result of parsing a robot post. -/
structure ParsedGroup where
  robots : List Robot
  body : List Char
  cw : Option (List Char)
deriving Repr, DecidableEq

/-- Match `[Bb][^\w\s]*[Oo][^\w\s]*[Tt]([^\w\s]*[Ss])?` at the head of
`cs`.  Returns the captured group 2 (the "bot" token), the optional
group 3 (the plural marker) and the remaining text.  Each `[^\w\s]*` run
is maximal: the letter that must follow is a word character, so the
greedy star never needs to backtrack. -/
def botPart (cc : CharClasses) (cs : List Char) :
    Option (List Char × Option (List Char) × List Char) :=
  match cs with
  | [] => none
  | b :: r0 =>
    if b = 'B' || b = 'b' then
      match (r0.span (isJunk cc) : List Char × List Char) with
      | (j1, r1) =>
        match r1 with
        | [] => none
        | o :: r2 =>
          if o = 'O' || o = 'o' then
            match (r2.span (isJunk cc) : List Char × List Char) with
            | (j2, r3) =>
              match r3 with
              | [] => none
              | t :: r4 =>
                if t = 'T' || t = 't' then
                  let g2 := b :: j1 ++ o :: j2 ++ [t]
                  match (r4.span (isJunk cc) : List Char × List Char) with
                  | (j3, r5) =>
                    match r5 with
                    | s :: r6 =>
                      if s = 'S' || s = 's' then some (g2, some (j3 ++ [s]), r6)
                      else some (g2, none, r4)
                    | [] => some (g2, none, r4)
                else none
          else none
    else none

/-- Backtracking over the greedy `(\S+)` capture: try group-1 lengths
from `k` down to `1`, preferring the longest (the regex engine's greedy
preference). -/
def tryG1 (cc : CharClasses) (cs : List Char) :
    Nat → Option (List Char × List Char × Option (List Char) × List Char)
  | 0 => none
  | k + 1 =>
    match botPart cc (cs.drop (k + 1)) with
    | some (g2, g3, rest) => some (cs.take (k + 1), g2, g3, rest)
    | none => tryG1 cc cs k

/-- Attempt a match of the full "bot" pattern
`(\S+)([Bb][^\w\s]*[Oo][^\w\s]*[Tt])([^\w\s]*[Ss])?` anchored at the head
of `cs`. -/
def matchBotAt (cc : CharClasses) (cs : List Char) :
    Option (List Char × List Char × Option (List Char) × List Char) :=
  let L := (cs.takeWhile (fun c => !cc.isSpace c)).length
  if L = 0 then none else tryG1 cc cs (L - 1)

/-- Leftmost search for the "bot" pattern: the first component is the
offset of the match start from the head of `cs`. -/
def findBot (cc : CharClasses) :
    List Char →
    Option (Nat × List Char × List Char × Option (List Char) × List Char)
  | [] => none
  | c :: cs =>
    match matchBotAt cc (c :: cs) with
    | some r => some (0, r)
    | none => (findBot cc cs).map (fun p => (p.1 + 1, p.2))

/-- Collect up to `slots` further non-overlapping "bot" matches, each
search resuming after the end of the previous match (`captures_iter`).
Returns the names in order and the remainder after the last match. -/
def collectMore (cc : CharClasses) :
    Nat → List Char → List RobotName × List Char
  | 0, cur => ([], cur)
  | slots + 1, cur =>
    match findBot cc cur with
    | none => ([], cur)
    | some (_, g1, g2, g3, rest) =>
      let p := collectMore cc slots rest
      (⟨g1, g2, g3⟩ :: p.1, p.2)

/-- The anchored shorthand pattern `^(\w{2,})(-)?` applied to one
whitespace-separated token: succeeds when the token starts with at least
two word characters, capturing that maximal run. -/
def shortTok (cc : CharClasses) (w : List Char) : Option (List Char) :=
  let r := w.takeWhile cc.isWord
  if 2 ≤ r.length then some r else none

/-- `str::split_whitespace`, with the whitespace class abstract. -/
def splitWsGo (cc : CharClasses) : List Char → List Char → List (List Char)
  | [], acc => if acc.isEmpty then [] else [acc.reverse]
  | c :: cs, acc =>
    if cc.isSpace c then
      if acc.isEmpty then splitWsGo cc cs []
      else acc.reverse :: splitWsGo cc cs []
    else splitWsGo cc cs (c :: acc)

def splitWs (cc : CharClasses) (s : List Char) : List (List Char) :=
  splitWsGo cc s []

/-- `str::to_lowercase` over the abstract per-character lowering. -/
def lowerStr (cc : CharClasses) (s : List Char) : List Char :=
  s.flatMap cc.lower

/-- The shorthand prefix tokens of `parse_names`: split the text before
the first full match on whitespace, discard the word "and", apply the
shorthand pattern, and keep tokens with at least one non-digit
character. -/
def shorthandToks (cc : CharClasses) (pre : List Char) : List (List Char) :=
  (((splitWs cc pre).filter
        (fun w => !(lowerStr cc w = ['a', 'n', 'd']))).filterMap
      (shortTok cc)).filter
    (fun m1 => m1.any (fun c => !c.isDigit))

/-- The synthesized shorthand names of `parse_names`: each shorthand
token becomes a name with the token as prefix, copying the first full
match's suffix and plural marker. -/
def shortNames (cc : CharClasses) (pre : List Char) (firstSuf : List Char)
    (firstPlural : Option (List Char)) : List RobotName :=
  (shorthandToks cc pre).map (fun m1 => ⟨m1, firstSuf, firstPlural⟩)

/-- `parse_names`: collect up to `targetN` full "bot" matches; if fewer
were found and the first match did not start at the beginning of the
text, synthesize shorthand names from the text before the first match
and prepend them.  Returns the remainder after the last full match, the
names, and whether shorthand names were used. -/
def parseNames (cc : CharClasses) (s : List Char) (targetN : Nat) :
    Option (List Char × List RobotName × Bool) :=
  if targetN = 0 then none
  else
    match findBot cc s with
    | none => none
    | some (i, g1, g2, g3, rest) =>
      let firstName : RobotName := ⟨g1, g2, g3⟩
      let p := collectMore cc (targetN - 1) rest
      let fullNames := firstName :: p.1
      let finalRest := p.2
      let useShort := decide (fullNames.length < targetN) && decide (0 < i)
      if useShort then
        let diff := targetN - fullNames.length
        let synth := (shortNames cc (s.take i) firstName.suf
            firstName.plural).take diff
        some (finalRest, synth ++ fullNames, true)
      else
        some (finalRest, fullNames, false)

/-- The tail `\W*(\S[^\]\)]+)[\]\)]` of the content-warning pattern,
tried with the greedy `\W*` consuming `j` characters. -/
def cwTailAt (cc : CharClasses) (r1 : List Char) (j : Nat) :
    Option (List Char × List Char) :=
  match r1.drop j with
  | [] => none
  | s :: r3 =>
    if !cc.isSpace s then
      let run := r3.takeWhile (fun c => !(c = ']') && !(c = ')'))
      if 1 ≤ run.length then
        match r3.drop run.length with
        | close :: r4 =>
          if close = ']' || close = ')' then some (s :: run, r4) else none
        | [] => none
      else none
    else none

/-- Backtracking over the greedy `\W*`: longest first. -/
def cwTailGo (cc : CharClasses) (r1 : List Char) : Nat → Option (List Char × List Char)
  | 0 => cwTailAt cc r1 0
  | j + 1 =>
    match cwTailAt cc r1 (j + 1) with
    | some r => some r
    | none => cwTailGo cc r1 j

/-- Match `\W*(\S[^\]\)]+)[\]\)]` at the head of `r1`, returning the
captured warning text and the remainder after the closing bracket. -/
def cwTail (cc : CharClasses) (r1 : List Char) : Option (List Char × List Char) :=
  cwTailGo cc r1 ((r1.takeWhile (fun c => !cc.isWord c)).length)

/-- Backtracking over the optional greedy `(.+:)`: content length `m`
tried from longest down to `1`; the caller falls back to the
group-absent alternative. -/
def cwGroup1Go (cc : CharClasses) (r : List Char) : Nat → Option (List Char × List Char)
  | 0 => none
  | m + 1 =>
    let attempt :=
      if (r.take (m + 1)).all (fun c => !(c = '\n')) then
        match r.drop (m + 1) with
        | ':' :: r2 => cwTail cc r2
        | _ => none
      else none
    match attempt with
    | some res => some res
    | none => cwGroup1Go cc r m

/-- `parse_cw`: match `^\s*[\[\(](.+:)?\W*(\S[^\]\)]+)[\]\)]` against the
post.  On a match, return the post after the matched prefix (leading
whitespace removed) and the trimmed warning text; otherwise pass the
post through unchanged. -/
def parseCw (cc : CharClasses) (s : List Char) :
    List Char × Option (List Char) :=
  let ws := s.takeWhile cc.isSpace
  match s.drop ws.length with
  | [] => (s, none)
  | br :: r =>
    if br = '[' || br = '(' then
      let res :=
        match cwGroup1Go cc r ((r.takeWhile (fun c => !(c = '\n'))).length) with
        | some res => some res
        | none => cwTail cc r
      match res with
      | some (g2, rest) =>
        (trimStart cc.isSpace rest, some (trimBoth cc.isSpace g2))
      | none => (s, none)
    else (s, none)

/-- `MAX_GROUP_SIZE` in `parse_group`. -/
def maxGroupSize : Nat := 5

/-- The `num_numbers` computation of `parse_group`: range width plus one
(`i32` subtraction wraps; `checked_add` fails at `i32::MAX`; the cast to
`usize` fails on negatives), capped at `MAX_GROUP_SIZE`, defaulting to
`MAX_GROUP_SIZE`. -/
def numNumbers (lo hi : Int) : Nat :=
  let d := wrap32 (hi - lo)
  let step1 : Option Int := if d = i32max then none else some (d + 1)
  let step2 : Option Nat := step1.bind (fun n => if 0 ≤ n then some n.toNat else none)
  let step3 : Option Nat := step2.map (fun n => min n maxGroupSize)
  step3.getD maxGroupSize

/-- `parse_group`: orchestrate content warning, number range and name
extraction into a `ParsedGroup`.  When shorthand names were used, the
plural marker of every robot is cleared. -/
def parseGroup (cc : CharClasses) (text : List Char) : Option ParsedGroup :=
  let s := trimStart cc.isSpace text
  let pcw := parseCw cc s
  (parseNumbers cc.isSpace pcw.1).bind (fun pr =>
    (parseNames cc pr.1 (min (numNumbers pr.2.1 pr.2.2) maxGroupSize)).map
      (fun pn =>
        { robots := pn.2.1.enum.map (fun p =>
            { number := wrap32 (pr.2.1 + Int.ofNat p.1),
              name := if pn.2.2 then { p.2 with plural := none } else p.2 }),
          body := pn.1.dropWhile (fun c => !cc.isWord c),
          cw := pcw.2 }))

/-- ASCII instantiation of the abstract character classes, used for
concrete evaluations. -/
def asciiCC : CharClasses where
  isWord := fun c => c.isAlphanum || c = '_'
  isSpace := fun c =>
    c = ' ' || c = '\t' || c = '\n' || c = '\r' ||
    c = Char.ofNat 11 || c = Char.ofNat 12
  lower := fun c =>
    [if 65 ≤ c.toNat && c.toNat ≤ 90 then Char.ofNat (c.toNat + 32) else c]


/-! ## HTML sanitizer (`src/datasource/mastodon/src/html.rs`)

The collaborator parser's generic tree (`markup5ever_rcdom::Node`) is
modelled by `GenNode`; the sanitizer walks it with a depth budget and
produces restricted `MdonHtmlNode` trees. -/

/-- The shape of a generic parsed-HTML node, as consumed by the
sanitizer.  Only document and element nodes carry children the code
ever reads. -/
inductive GenNode where
  | document (children : List GenNode)
  | doctype
  | text (contents : List Char)
  | comment
  | element (name : List Char) (attrs : List (List Char × List Char))
      (children : List GenNode)
  | pi
deriving Repr

/-- The allow-listed tag vocabulary (`MdonHtmlTag`). -/
inductive MdonHtmlTag where
  | p | br | a | del | pre | code | em | strong | b | i | u | ul | ol | li
  | blockquote
deriving Repr, DecidableEq

/-- The allow-listed attribute vocabulary (`MdonHtmlAttr`). -/
inductive MdonHtmlAttr where
  | href | start | reversed | value
deriving Repr, DecidableEq

/-- ASCII lowercasing of a character, for the case-insensitive
`try_unscribe` name lookups. -/
def asciiLowerChar (c : Char) : Char :=
  if 65 ≤ c.toNat && c.toNat ≤ 90 then Char.ofNat (c.toNat + 32) else c

/-- `MdonHtmlTag::try_unscribe`: case-insensitive lookup of a tag name. -/
def tagOfString (s : List Char) : Option MdonHtmlTag :=
  match (s.map asciiLowerChar : List Char) with
  | ['p'] => some .p
  | ['b', 'r'] => some .br
  | ['a'] => some .a
  | ['d', 'e', 'l'] => some .del
  | ['p', 'r', 'e'] => some .pre
  | ['c', 'o', 'd', 'e'] => some .code
  | ['e', 'm'] => some .em
  | ['s', 't', 'r', 'o', 'n', 'g'] => some .strong
  | ['b'] => some .b
  | ['i'] => some .i
  | ['u'] => some .u
  | ['u', 'l'] => some .ul
  | ['o', 'l'] => some .ol
  | ['l', 'i'] => some .li
  | ['b', 'l', 'o', 'c', 'k', 'q', 'u', 'o', 't', 'e'] => some .blockquote
  | _ => none

/-- `MdonHtmlAttr::try_unscribe`: case-insensitive lookup of an
attribute name. -/
def attrOfString (s : List Char) : Option MdonHtmlAttr :=
  match (s.map asciiLowerChar : List Char) with
  | ['h', 'r', 'e', 'f'] => some .href
  | ['s', 't', 'a', 'r', 't'] => some .start
  | ['r', 'e', 'v', 'e', 'r', 's', 'e', 'd'] => some .reversed
  | ['v', 'a', 'l', 'u', 'e'] => some .value
  | _ => none

/-- `MdonHtmlTag::is_attr_valid`: the static (tag, attribute)
allow-list. -/
def isAttrValid (t : MdonHtmlTag) (a : MdonHtmlAttr) : Bool :=
  match t, a with
  | .a, .href => true
  | .ol, .start => true
  | .ol, .reversed => true
  | .li, .value => true
  | _, _ => false

/-- A restricted output node (`MdonHtmlNode`, with `MdonHtmlElem`
inlined as the `element` constructor's fields). -/
inductive MdonHtmlNode where
  | element (tag : MdonHtmlTag) (attrs : List (MdonHtmlAttr × List Char))
      (children : List MdonHtmlNode)
  | text (s : List Char)
deriving Repr

def MdonHtmlNode.isText : MdonHtmlNode → Bool
  | .text _ => true
  | _ => false

/-- The `Either<Self, Vec<Self>>` conversion result flattened into a
list (`map_l(iter::once) … fold_symmetric`). -/
def sumToList : MdonHtmlNode ⊕ List MdonHtmlNode → List MdonHtmlNode
  | Sum.inl n => [n]
  | Sum.inr l => l

/-- One step of the text-coalescing fold: a text node arriving in front
of a text node merges with it by concatenation. -/
def coalesceStep (n : MdonHtmlNode) (acc : List MdonHtmlNode) :
    List MdonHtmlNode :=
  match n, acc with
  | .text a, .text b :: acc2 => .text (a ++ b) :: acc2
  | _, _ => n :: acc

/-- The text-coalescing iterator (`MdonHtmlNodeIter`): adjacent `Text`
nodes are merged into one by concatenation in order. -/
def coalesce (l : List MdonHtmlNode) : List MdonHtmlNode :=
  l.foldr coalesceStep []

/-- `MdonHtmlNode::conv_markup5ever_node`: the depth budget is
decremented first (`checked_sub`), and a budget of zero drops the whole
subtree.  Document, doctype, comment and processing-instruction nodes
contribute nothing; text nodes convert to `Text`; elements are either
kept (allow-listed tag, attributes filtered) or unwrapped (children
spliced in place). -/
def convNode : Nat → GenNode → MdonHtmlNode ⊕ List MdonHtmlNode
  | 0, _ => Sum.inr []
  | _ + 1, .document _ => Sum.inr []
  | _ + 1, .doctype => Sum.inr []
  | _ + 1, .text s => Sum.inl (.text s)
  | _ + 1, .comment => Sum.inr []
  | d + 1, .element name attrs children =>
    let cs := coalesce (children.flatMap (fun c => sumToList (convNode d c)))
    match tagOfString name with
    | none => Sum.inr cs
    | some tag =>
      let named := attrs.filterMap
        (fun q => (attrOfString q.1).map (fun a => (a, q.2)))
      Sum.inl (.element tag (named.filter (fun q => isAttrValid tag q.1)) cs)
  | _ + 1, .pi => Sum.inr []

/-- `MdonHtmlNode::conv_markup5ever_nodes_all`: convert a sibling list,
splice, and coalesce adjacent text. -/
def convAll (d : Nat) (ns : List GenNode) : List MdonHtmlNode :=
  coalesce (ns.flatMap (fun n => sumToList (convNode d n)))

/-- `MdonHtmlDoc::from_markup5ever_node`: requires a document-shaped
root and converts its children with the caller-supplied depth budget. -/
def fromM5Node (n : GenNode) (d : Nat) : Option (List MdonHtmlNode) :=
  match n with
  | .document children => some (convAll d children)
  | _ => none

/-- Remove every node that lies at depth at least `d` below a sibling
list (the list's own members are at depth `0`). -/
def pruneList : Nat → List GenNode → List GenNode
  | 0, _ => []
  | d + 1, ns =>
    ns.map
      (fun n =>
        match n with
        | .document cs => .document (pruneList d cs)
        | .element nm a cs => .element nm a (pruneList d cs)
        | other => other)

/-- No two adjacent members of the list are both `Text`. -/
def adjTextFree : List MdonHtmlNode → Bool
  | [] => true
  | [_] => true
  | a :: b :: r => !(a.isText && b.isText) && adjTextFree (b :: r)

mutual

/-- At every level inside the node, no two adjacent siblings are both
`Text`. -/
def sanitizedB : MdonHtmlNode → Bool
  | .text _ => true
  | .element _ _ cs => adjTextFree cs && sanitizedList cs

def sanitizedList : List MdonHtmlNode → Bool
  | [] => true
  | c :: cs => sanitizedB c && sanitizedList cs

end

/-! ## HTML escaping (`EscapeHtml` and `escape_char`) -/

/-- `escape_char`: the six characters replaced during serialization
(the Rust `match` written as a decision chain). -/
def escapeChar (c : Char) : Option (List Char) :=
  if c = '&' then some ['&', 'a', 'm', 'p', ';']
  else if c = '\n' then some ['&', 'n', 'b', 's', 'p', ';']
  else if c = '"' then some ['&', 'q', 'u', 'o', 't', ';']
  else if c = '\'' then some ['&', 'a', 'p', 'o', 's', ';']
  else if c = '<' then some ['&', 'l', 't', ';']
  else if c = '>' then some ['&', 'g', 't', ';']
  else none

/-- One character's contribution to the serialized text
(`EscapeHtml::fmt` writes the escape when there is one, the character
itself otherwise). -/
def escFrag (c : Char) : List Char :=
  match escapeChar c with
  | some e => e
  | none => [c]

/-- `EscapeHtml`: serialize a text with character-level escaping. -/
def escapeHtml (l : List Char) : List Char := l.flatMap escFrag

/-- Decoder for the six escape sequences (the inverse reading of
`escape_char`); any other text passes through unchanged. -/
def unescapeHtml : List Char → List Char
  | [] => []
  | c :: r =>
    if c = '&' then
      if ['a', 'm', 'p', ';'].isPrefixOf r then '&' :: unescapeHtml (r.drop 4)
      else if ['n', 'b', 's', 'p', ';'].isPrefixOf r then
        '\n' :: unescapeHtml (r.drop 5)
      else if ['q', 'u', 'o', 't', ';'].isPrefixOf r then
        '"' :: unescapeHtml (r.drop 5)
      else if ['a', 'p', 'o', 's', ';'].isPrefixOf r then
        '\'' :: unescapeHtml (r.drop 5)
      else if ['l', 't', ';'].isPrefixOf r then '<' :: unescapeHtml (r.drop 3)
      else if ['g', 't', ';'].isPrefixOf r then '>' :: unescapeHtml (r.drop 3)
      else '&' :: unescapeHtml r
    else c :: unescapeHtml r
termination_by l => l.length
decreasing_by all_goals (simp only [List.length_drop, List.length_cons]; omega)

/-- A character `escape_char` replaces. -/
def isSpecialChar (c : Char) : Bool := (escapeChar c).isSome

/-- The six full escape sequences. -/
def escSeqs : List (List Char) :=
  [['&', 'a', 'm', 'p', ';'], ['&', 'n', 'b', 's', 'p', ';'],
   ['&', 'q', 'u', 'o', 't', ';'], ['&', 'a', 'p', 'o', 's', ';'],
   ['&', 'l', 't', ';'], ['&', 'g', 't', ';']]

/-- Scan a serialized text: every occurrence of one of the six escaped
characters must be an `&` that begins one of the six escape sequences. -/
def escOk : List Char → Bool
  | [] => true
  | c :: r =>
    if isSpecialChar c then
      (c = '&' && escSeqs.any (fun e => e.isPrefixOf (c :: r))) && escOk r
    else escOk r

/-! ## Compact identifier (`src/datasource/mastodon/src/ident.rs`)

`str_to_ident_name` feeds the prefix through the
`unicode-normalization` crate's NFC iterator, `char::to_lowercase` and
`char::is_alphanumeric`; those Unicode tables are abstracted as
`UnicodeOps`.  UTF-8 encoding of a code point is exact. -/

/-- The Unicode operations used by the identifier normalizer, kept
abstract. -/
structure UnicodeOps where
  /-- The `.nfc()` iterator adaptor (canonical composition). -/
  nfc : List Char → List Char
  /-- `char::to_lowercase` (possibly multi-character). -/
  lower : Char → List Char
  /-- `char::is_alphanumeric` (Unicode `Alphabetic` or number). -/
  isAlphanum : Char → Bool

/-- `char::len_utf8`. -/
def utf8Len (c : Char) : Nat :=
  if c.toNat < 128 then 1
  else if c.toNat < 2048 then 2
  else if c.toNat < 65536 then 3
  else 4

/-- `char::encode_utf8`: the UTF-8 encoding of one code point, as byte
values. -/
def utf8Bytes (c : Char) : List Nat :=
  let n := c.toNat
  if n < 128 then [n]
  else if n < 2048 then [192 + n / 64, 128 + n % 64]
  else if n < 65536 then [224 + n / 4096, 128 + n / 64 % 64, 128 + n % 64]
  else [240 + n / 262144, 128 + n / 4096 % 64, 128 + n / 64 % 64,
    128 + n % 64]

/-- The normalized character stream of `str_to_ident_name`:
NFC, then lowercase, then keep only alphanumeric code points. -/
def identStream (uo : UnicodeOps) (s : List Char) : List Char :=
  ((uo.nfc s).flatMap uo.lower).filter uo.isAlphanum

/-- The write loop of `str_to_ident_name`: encode each code point into
the remaining buffer capacity, stopping (`break`) before any code point
whose encoding would not fit. -/
def identNameGo : Nat → List Char → List Nat
  | _, [] => []
  | cap, c :: cs =>
    if cap < utf8Len c then []
    else utf8Bytes c ++ identNameGo (cap - utf8Len c) cs

/-- The code points actually written by `identNameGo`. -/
def writtenChars : Nat → List Char → List Char
  | _, [] => []
  | cap, c :: cs =>
    if cap < utf8Len c then [] else c :: writtenChars (cap - utf8Len c) cs

/-- The buffer capacity of `Ident` (16 bytes). -/
def identCapacity : Nat := 16

/-- `str_to_ident_name`: the written bytes and their length. -/
def strToIdentName (uo : UnicodeOps) (s : List Char) : List Nat × Nat :=
  let bs := identNameGo identCapacity (identStream uo s)
  (bs, bs.length)

/-- The normalization the specification says an identifier stores: NFC,
lowercased, non-alphanumeric code points removed, truncated to the
capacity at whole-code-point boundaries. -/
def normalizePrefix (uo : UnicodeOps) (s : List Char) : List Char :=
  writtenChars identCapacity (identStream uo s)

/-- UTF-8 decoder, rejecting malformed continuation bytes, overlong
encodings, surrogate values and out-of-range values. -/
def utf8Decode : List Nat → Option (List Char)
  | [] => some []
  | b :: r =>
    if b < 128 then (utf8Decode r).map (fun cs => Char.ofNat b :: cs)
    else if b < 192 then none
    else
      match r with
      | [] => none
      | b1 :: r1 =>
        if b < 224 then
          if 128 ≤ b1 ∧ b1 < 192 then
            let v := (b - 192) * 64 + (b1 - 128)
            if 128 ≤ v then
              (utf8Decode r1).map (fun cs => Char.ofNat v :: cs)
            else none
          else none
        else
          match r1 with
          | [] => none
          | b2 :: r2 =>
            if b < 240 then
              if (128 ≤ b1 ∧ b1 < 192) ∧ (128 ≤ b2 ∧ b2 < 192) then
                let v := (b - 224) * 4096 + (b1 - 128) * 64 + (b2 - 128)
                if 2048 ≤ v ∧ ¬(55296 ≤ v ∧ v < 57344) then
                  (utf8Decode r2).map (fun cs => Char.ofNat v :: cs)
                else none
              else none
            else
              match r2 with
              | [] => none
              | b3 :: r3 =>
                if b < 248 then
                  if ((128 ≤ b1 ∧ b1 < 192) ∧ (128 ≤ b2 ∧ b2 < 192)) ∧
                      (128 ≤ b3 ∧ b3 < 192) then
                    let v := (b - 240) * 262144 + (b1 - 128) * 4096 +
                      (b2 - 128) * 64 + (b3 - 128)
                    if 65536 ≤ v ∧ v < 1114112 then
                      (utf8Decode r3).map (fun cs => Char.ofNat v :: cs)
                    else none
                  else none
                else none

/-- The "invalid robot id" error of `Ident::new`. -/
structure IdentError where
deriving Repr, DecidableEq

/-- `Ident`: season, number and the written identifier-name bytes (the
first `name_len` bytes of the Rust 16-byte buffer). -/
structure Ident where
  season : Nat
  num : Int
  nameBytes : List Nat
deriving Repr, DecidableEq

/-- `Ident::new`: normalize the prefix; the resulting length must fit in
`u8` (`u8::try_from`) and be nonzero (`NonZeroU8::new`), otherwise the
named `IdentError` is returned. -/
def Ident.new (uo : UnicodeOps) (season : Nat) (num : Int)
    (pfx : List Char) : Except IdentError Ident :=
  let p := strToIdentName uo pfx
  if 255 < p.2 ∨ p.2 = 0 then Except.error ⟨⟩
  else Except.ok ⟨season, num, p.1⟩

/-- `Ident::name`: the text view of the stored bytes
(`str::from_utf8_unchecked` in the source, modelled as decoding). -/
def Ident.name (id : Ident) : List Char := (utf8Decode id.nameBytes).getD []

/-- The decoded view used for equality and ordering (`DecodedIdent`). -/
structure DecodedIdent where
  season : Nat
  num : Int
  name : List Char
deriving Repr, DecidableEq

/-- `Ident::decode`. -/
def Ident.decode (id : Ident) : DecodedIdent :=
  ⟨id.season, id.num, id.name⟩

/-! ## Storage identifier (`RobotName::ident`, `Robot::ident` in
`src/parser/src/lib.rs`)

`unidecode` (ASCII transliteration) and `str::to_lowercase` are
external tables, abstracted as parameters. -/

/-- `IdentBuf` from `sbbarch_common`: a number and an unbounded
identifier-name string. -/
structure IdentBuf where
  number : Int
  name : List Char
deriving Repr, DecidableEq

/-- `RobotName::ident`: ASCII-transliterate the prefix, lowercase it,
and keep only ASCII alphanumeric characters. -/
def robotNameIdent (unidec : List Char → List Char)
    (lower : Char → List Char) (n : RobotName) : List Char :=
  ((unidec n.pre).flatMap lower).filter Char.isAlphanum

/-- `Robot::ident`. -/
def robotIdent (unidec : List Char → List Char) (lower : Char → List Char)
    (r : Robot) : IdentBuf :=
  ⟨r.number, robotNameIdent unidec lower r.name⟩

/-- ASCII instantiations for concrete evaluation. -/
def asciiLowerList (c : Char) : List Char := [asciiLowerChar c]

def asciiUO : UnicodeOps where
  nfc := fun l => l
  lower := asciiLowerList
  isAlphanum := Char.isAlphanum

/-! # Theorems -/

/-! ## Arithmetic helpers -/

theorem wrap32_eq_self {v : Int} (h : inI32 v) : wrap32 v = v := by
  obtain ⟨h1, h2⟩ := h
  unfold i32min at h1
  unfold i32max at h2
  unfold wrap32
  omega

theorem inI32_of_natAbs_le {v : Int} (h : v.natAbs ≤ 2147483647) :
    inI32 v := by
  unfold inI32 i32min i32max
  omega

theorem int_ofNat_tdiv (m n : Nat) :
    (Int.ofNat m).tdiv (Int.ofNat n) = Int.ofNat (m / n) := rfl

theorem int_ofNat_tmod (m n : Nat) :
    (Int.ofNat m).tmod (Int.ofNat n) = Int.ofNat (m % n) := rfl

theorem int_negSucc_tdiv (k n : Nat) :
    (Int.negSucc k).tdiv (Int.ofNat n) = -Int.ofNat ((k + 1) / n) := rfl

theorem int_negSucc_tmod (k n : Nat) :
    (Int.negSucc k).tmod (Int.ofNat n) = -Int.ofNat ((k + 1) % n) := rfl

/-! ## Range inference: the digit-count and reconstruction loops -/

theorem digitsLenGo_zero : ∀ f, digitsLenGo f 0 = 0
  | 0 => rfl
  | _ + 1 => rfl

theorem digitsLenGo_succ (f m : Nat) (hm : m ≠ 0) :
    digitsLenGo (f + 1) m = digitsLenGo f (m / 10) + 1 := by
  simp [digitsLenGo, hm]

theorem digitsLenGo_congr :
    ∀ f1 f2 m, m ≤ f1 → m ≤ f2 → digitsLenGo f1 m = digitsLenGo f2 m := by
  intro f1
  induction f1 with
  | zero =>
    intro f2 m h1 _
    have hm : m = 0 := by omega
    rw [hm, digitsLenGo_zero, digitsLenGo_zero]
  | succ f ih =>
    intro f2 m h1 h2
    by_cases hm : m = 0
    · rw [hm, digitsLenGo_zero, digitsLenGo_zero]
    · obtain ⟨g, rfl⟩ : ∃ g, f2 = g + 1 := ⟨f2 - 1, by omega⟩
      rw [digitsLenGo_succ f m hm, digitsLenGo_succ g m hm]
      have hlt : m / 10 < m := Nat.div_lt_self (by omega) (by omega)
      rw [ih g (m / 10) (by omega) (by omega)]

theorem digitsLen_pos_step {m : Nat} (h : 0 < m) :
    digitsLen m = digitsLen (m / 10) + 1 := by
  obtain ⟨k, rfl⟩ : ∃ k, m = k + 1 := ⟨m - 1, by omega⟩
  unfold digitsLen
  rw [digitsLenGo_succ k (k + 1) (by omega)]
  have hlt : (k + 1) / 10 < k + 1 := Nat.div_lt_self (Nat.succ_pos k) (by omega)
  rw [digitsLenGo_congr k ((k + 1) / 10) ((k + 1) / 10) (by omega) le_rfl]

theorem toNat_tdiv_ten {x : Int} (h : 0 < x) :
    (x.tdiv 10).toNat = x.toNat / 10 := by
  have hx : Int.ofNat x.toNat = x := Int.toNat_of_nonneg h.le
  rw [← hx]
  rfl

theorem botLoopAux_spec :
    ∀ fuel (major x : Int) (dps : Nat), x.toNat ≤ fuel →
      botLoopAux fuel major x dps =
        (tdivPow (digitsLen x.toNat) major, dps + digitsLen x.toNat) := by
  intro fuel
  induction fuel with
  | zero =>
    intro major x dps h
    have h0 : x.toNat = 0 := by omega
    rw [h0]
    simp [botLoopAux, digitsLen, digitsLenGo, tdivPow]
  | succ f ih =>
    intro major x dps h
    by_cases hx : 0 < x
    · have hm : 0 < x.toNat := by omega
      have hstep : (x.tdiv 10).toNat = x.toNat / 10 := toNat_tdiv_ten hx
      have hrec : botLoopAux (f + 1) major x dps =
          botLoopAux f (major.tdiv 10) (x.tdiv 10) (dps + 1) := by
        simp [botLoopAux, hx]
      rw [hrec, ih (major.tdiv 10) (x.tdiv 10) (dps + 1)
        (by rw [hstep]; omega)]
      rw [hstep, digitsLen_pos_step hm]
      refine Prod.ext ?_ (by simp; omega)
      show tdivPow (digitsLen (x.toNat / 10)) (major.tdiv 10) =
        tdivPow (digitsLen (x.toNat / 10) + 1) major
      rfl
    · have h0 : x.toNat = 0 := by omega
      rw [h0]
      simp [botLoopAux, hx, digitsLen, digitsLenGo, tdivPow]

theorem tdivPow_ofNat (d m : Nat) :
    tdivPow d (Int.ofNat m) = Int.ofNat (m / 10 ^ d) := by
  induction d generalizing m with
  | zero => simp [tdivPow]
  | succ d ih =>
    show tdivPow d ((Int.ofNat m).tdiv (Int.ofNat 10)) = _
    rw [int_ofNat_tdiv, ih]
    rw [Nat.div_div_eq_div_mul]
    congr 1
    rw [pow_succ, Nat.mul_comm]

theorem tdivPow_neg (d : Nat) (a : Int) : tdivPow d (-a) = -tdivPow d a := by
  induction d generalizing a with
  | zero => rfl
  | succ d ih =>
    show tdivPow d ((-a).tdiv 10) = _
    rw [Int.neg_tdiv, ih]
    rfl

theorem mulBack_eq (d : Nat) (a : Int)
    (h : ∀ k, k ≤ d → inI32 (a * 10 ^ k)) : mulBack a d = a * 10 ^ d := by
  induction d generalizing a with
  | zero => simp [mulBack]
  | succ d ih =>
    have h1 : wrap32 (a * 10) = a * 10 := by
      have := h 1 (by omega)
      rw [pow_one] at this
      exact wrap32_eq_self this
    have hbounds : ∀ k, k ≤ d → inI32 (a * 10 * 10 ^ k) := by
      intro k hk
      have h2 := h (k + 1) (by omega)
      rw [pow_succ] at h2
      have he : a * 10 * 10 ^ k = a * (10 ^ k * 10) := by ring
      rw [he]
      exact h2
    show mulBack (wrap32 (a * 10)) d = _
    rw [h1, ih (a * 10) hbounds, pow_succ]
    ring

theorem nat_div_pow_mul_le (m d k : Nat) (hk : k ≤ d) :
    m / 10 ^ d * 10 ^ k ≤ m := by
  have h1 : m / 10 ^ d ≤ m / 10 ^ k :=
    Nat.div_le_div_left (Nat.pow_le_pow_right (by omega) hk)
      (pow_pos (by omega) k)
  calc m / 10 ^ d * 10 ^ k ≤ m / 10 ^ k * 10 ^ k :=
        Nat.mul_le_mul_right _ h1
    _ ≤ m := Nat.div_mul_le_self m (10 ^ k)

theorem tdivPow_natAbs (d : Nat) (a : Int) :
    (tdivPow d a).natAbs = a.natAbs / 10 ^ d := by
  cases a with
  | ofNat m => rw [tdivPow_ofNat]; rfl
  | negSucc k =>
    have hk : Int.negSucc k = -Int.ofNat (k + 1) := rfl
    rw [hk, tdivPow_neg, Int.natAbs_neg, tdivPow_ofNat]
    rfl

theorem tdivPow_cast (d m : Nat) :
    tdivPow d ((m : Nat) : Int) = ((m / 10 ^ d : Nat) : Int) :=
  tdivPow_ofNat d m

theorem int_cast_tmod (m n : Nat) :
    ((m : Nat) : Int).tmod ((n : Nat) : Int) = ((m % n : Nat) : Int) := rfl

theorem int_negSucc_tmod_cast (k n : Nat) :
    (Int.negSucc k).tmod ((n : Nat) : Int) = -(((k + 1) % n : Nat) : Int) := rfl

theorem tdivPow_mul_pow_eq (first : Int) (d : Nat) :
    tdivPow d first * 10 ^ d = first - first.tmod (10 ^ d) := by
  have hp : ((10 ^ d : Nat) : Int) = (10 : Int) ^ d := by push_cast; ring
  cases first with
  | ofNat m =>
    have hle : m % 10 ^ d ≤ m := Nat.mod_le m _
    have hdm := Nat.div_add_mod m (10 ^ d)
    have hcomm : m / 10 ^ d * 10 ^ d = 10 ^ d * (m / 10 ^ d) := Nat.mul_comm _ _
    have hNat : m / 10 ^ d * 10 ^ d = m - m % 10 ^ d := by omega
    simp only [Int.ofNat_eq_coe]
    rw [tdivPow_cast, ← hp, int_cast_tmod]
    rw [← Nat.cast_mul, hNat, Nat.cast_sub hle]
  | negSucc k =>
    have hle : (k + 1) % 10 ^ d ≤ k + 1 := Nat.mod_le _ _
    have hdm := Nat.div_add_mod (k + 1) (10 ^ d)
    have hcomm : (k + 1) / 10 ^ d * 10 ^ d = 10 ^ d * ((k + 1) / 10 ^ d) :=
      Nat.mul_comm _ _
    have hNat : (k + 1) / 10 ^ d * 10 ^ d = (k + 1) - (k + 1) % 10 ^ d := by
      omega
    rw [← hp, int_negSucc_tmod_cast]
    have h1 : tdivPow d (Int.negSucc k) = -(((k + 1) / 10 ^ d : Nat) : Int) := by
      rw [show Int.negSucc k = -((k + 1 : Nat) : Int) from rfl, tdivPow_neg,
        tdivPow_cast]
    rw [h1, show Int.negSucc k = -((k + 1 : Nat) : Int) from rfl, neg_mul]
    rw [← Nat.cast_mul, hNat, Nat.cast_sub hle]
    ring

theorem i32abs_eq {first : Int} (hf : first.natAbs ≤ 2147483647) :
    i32abs first = |first| := by
  unfold i32abs
  refine wrap32_eq_self (inI32_of_natAbs_le ?_)
  rw [Int.abs_eq_natAbs, Int.natAbs_ofNat]
  exact hf

theorem reconstructStep_eq (first n : Int)
    (hf : first.natAbs ≤ 2147483647) (hn : 0 < n) (hlt : n < |first|)
    (hfit : inI32 (specReconstruct first n)) :
    reconstructStep first n = specReconstruct first n := by
  have habs := i32abs_eq hf
  have hcond : 0 < n ∧ n < i32abs first := ⟨hn, by rw [habs]; exact hlt⟩
  unfold reconstructStep
  rw [if_pos hcond]
  have hloop : botLoop first n =
      (tdivPow (digitsLen n.toNat) first, 0 + digitsLen n.toNat) :=
    botLoopAux_spec n.toNat first n 0 le_rfl
  set d := digitsLen n.toNat with hd
  have hbound : ∀ k, k ≤ d → inI32 (tdivPow d first * 10 ^ k) := by
    intro k hk
    refine inI32_of_natAbs_le ?_
    rw [Int.natAbs_mul, Int.natAbs_pow, tdivPow_natAbs]
    show first.natAbs / 10 ^ d * (10 : Int).natAbs ^ k ≤ 2147483647
    have h10 : (10 : Int).natAbs = 10 := rfl
    rw [h10]
    exact le_trans (nat_div_pow_mul_le first.natAbs d k hk) hf
  rw [hloop]
  show wrap32 (mulBack (tdivPow d first) (0 + d) + n * first.sign) = _
  rw [Nat.zero_add, mulBack_eq d (tdivPow d first) hbound, tdivPow_mul_pow_eq]
  exact wrap32_eq_self hfit

theorem reconstructStep_eq_specAdjust (first n : Int)
    (hf : first.natAbs ≤ 2147483647)
    (hfit : 0 < n → n < |first| → inI32 (specReconstruct first n)) :
    reconstructStep first n = specAdjust first n := by
  by_cases hc : 0 < n ∧ n < |first|
  · rw [specAdjust, if_pos hc]
    exact reconstructStep_eq first n hf hc.1 hc.2 (hfit hc.1 hc.2)
  · rw [specAdjust, if_neg hc]
    unfold reconstructStep
    rw [i32abs_eq hf, if_neg hc]

theorem foldMinMax (g : Int → Int) :
    ∀ (l : List Int) (a b : Int), a ≤ b →
      l.foldl
        (fun acc n =>
          let n1 := g n
          if n1 < acc.1 then (n1, acc.2)
          else if acc.2 < n1 then (acc.1, n1) else acc)
        (a, b) =
      ((l.map g).foldl min a, (l.map g).foldl max b) := by
  intro l
  induction l with
  | nil => intro a b _; rfl
  | cons n l ih =>
    intro a b hab
    simp only [List.foldl_cons, List.map_cons]
    by_cases h1 : g n < a
    · rw [if_pos h1]
      have hmin : min a (g n) = g n := by omega
      have hmax : max b (g n) = b := by omega
      rw [hmin, hmax]
      exact ih (g n) b (by omega)
    · rw [if_neg h1]
      by_cases h2 : b < g n
      · rw [if_pos h2]
        have hmin : min a (g n) = a := by omega
        have hmax : max b (g n) = g n := by omega
        rw [hmin, hmax]
        exact ih a (g n) (by omega)
      · rw [if_neg h2]
        have hmin : min a (g n) = a := by omega
        have hmax : max b (g n) = b := by omega
        rw [hmin, hmax]
        exact ih a b hab

/-! ## Claim C1: range inference -/

/-- C1 (corrected).  For a non-empty list of parsed numbers headed by
`first` (any value `str::parse::<i32>` can produce, so `|first| ≤
i32::MAX`), and provided every reconstruction demanded by the
specification fits in the `i32` range (otherwise the final addition
wraps, see the counterexample): a single-number list yields
`(first, first)`; otherwise each subsequent `n` with `0 < n < |first|`
is replaced by `specReconstruct first n` — `first` with its lowest
`digitsLen n` decimal digits zeroed, plus `n` times the sign of `first`
— any other `n` is used as-is, and the function returns the inclusive
`(min, max)` over `first` and all (possibly reconstructed) values. -/
theorem numbers_range_inference (first : Int) (rest : List Int)
    (hf : first.natAbs ≤ 2147483647)
    (hfit : ∀ n ∈ rest, 0 < n → n < |first| → inI32 (specReconstruct first n)) :
    numbersRange (first :: rest) =
      some ((rest.map (specAdjust first)).foldl min first,
            (rest.map (specAdjust first)).foldl max first) := by
  cases rest with
  | nil => rfl
  | cons r rs =>
    show some (minMaxFold (r :: rs) first) = _
    unfold minMaxFold
    rw [foldMinMax (reconstructStep first) (r :: rs) first first le_rfl]
    have hmap : (r :: rs).map (reconstructStep first) =
        (r :: rs).map (specAdjust first) :=
      List.map_congr_left (fun n hn =>
        reconstructStep_eq_specAdjust first n hf (hfit n hn))
    rw [hmap]

/-- Witness for C1: the two examples named by the specification,
`558/9 ↦ 558..=559` and `1039/40 ↦ 1039..=1040` (the latter inside the
list `1039, 8 & 40 ↦ 1038..=1040` from the repository's tests). -/
theorem numbers_range_inference_witness :
    numbersRange [558, 9] = some (558, 559) ∧
    numbersRange [1039, 8, 40] = some (1038, 1040) := by
  constructor
  · have h := numbers_range_inference 558 [9] (by decide) (by decide)
    rw [h]
    decide
  · have h := numbers_range_inference 1039 [8, 40] (by decide) (by decide)
    rw [h]
    decide

/-- Counterexample for C1 as stated: with parsed numbers
`[2000000000, 999999999]` the specification's reconstruction is
`2999999999`, which exceeds `i32::MAX`; the code's `i32` addition wraps
to `-1294967297` instead of producing the claimed maximum. -/
theorem numbers_range_inference_counterexample :
    specReconstruct 2000000000 999999999 = 2999999999 ∧
    numbersRange [2000000000, 999999999] = some (-1294967297, 2000000000) ∧
    numbersRange [2000000000, 999999999] ≠
      some (2000000000, specReconstruct 2000000000 999999999) := by
  refine ⟨by decide, by decide, by decide⟩

/-! ## Claim C2: 32-bit overflow handling -/

/-- C2 (corrected).  Each buffered digit run parses as a 32-bit signed
integer and a run whose value exceeds `i32::MAX` makes the whole scan
return no result, with the claimed boundary behaviour
(`"2147483647)"` succeeds, `"2147483648)"` fails).  (Range inference,
by contrast, does not fail on overflow — see the counterexample.) -/
theorem parse_numbers_i32 :
    (parseNumbers asciiCC.isSpace "2147483647)".data =
      some ([], (2147483647, 2147483647))) ∧
    (parseNumbers asciiCC.isSpace "2147483648)".data = none) ∧
    (∀ buf neg, buf ≠ [] → buf.all Char.isDigit = true →
      parseNumberTok buf neg =
        if digitsVal buf ≤ i32max then
          some (digitsVal buf * if neg then -1 else 1)
        else none) ∧
    (∀ cs ns buf neg negEnabled foundDigit, i32max < digitsVal buf →
      scanNumbers cs ns buf neg negEnabled foundDigit = none) := by
  refine ⟨by decide, by decide, ?_, ?_⟩
  · intro buf neg hne hall
    by_cases hle : digitsVal buf ≤ i32max
    · rw [if_pos hle]
      unfold parseNumberTok
      rw [if_pos ⟨hne, hall, hle⟩]
    · rw [if_neg hle]
      unfold parseNumberTok
      rw [if_neg (by
        rintro ⟨-, -, h3⟩
        exact hle h3)]
  · intro cs
    induction cs with
    | nil =>
      intro ns buf neg negEnabled foundDigit hover
      have hne : buf ≠ [] := by
        rintro rfl
        revert hover
        decide
      show flushBuf ns buf neg = none
      unfold flushBuf
      rw [if_neg hne]
      unfold parseNumberTok
      rw [if_neg (by
        rintro ⟨-, -, h3⟩
        have : i32max < i32max := lt_of_lt_of_le hover h3
        exact absurd this (lt_irrefl _))]
      rfl
    | cons c cs ih =>
      intro ns buf neg negEnabled foundDigit hover
      have hne : buf ≠ [] := by
        rintro rfl
        revert hover
        decide
      have hflush : flushBuf ns buf neg = none := by
        unfold flushBuf
        rw [if_neg hne]
        unfold parseNumberTok
        rw [if_neg (by
          rintro ⟨-, -, h3⟩
          have : i32max < i32max := lt_of_lt_of_le hover h3
          exact absurd this (lt_irrefl _))]
        rfl
      show scanNumbers (c :: cs) ns buf neg negEnabled foundDigit = none
      by_cases hd : c.isDigit
      · have hgrow : i32max < digitsVal (buf ++ [c]) := by
          unfold digitsVal at hover ⊢
          rw [List.foldl_append]
          simp only [List.foldl_cons, List.foldl_nil]
          have hc : 48 ≤ (c.toNat : Int) ∧ (c.toNat : Int) ≤ 57 := by
            have := hd
            unfold Char.isDigit at this
            simp only [Bool.and_eq_true, decide_eq_true_eq] at this
            constructor
            · exact_mod_cast this.1
            · exact_mod_cast this.2
          set v := List.foldl (fun acc c => acc * 10 + (Int.ofNat c.toNat - 48)) 0 buf
          unfold i32max at hover ⊢
          have h1 : (2147483647 : Int) < v := hover
          have h2 : (Int.ofNat c.toNat : Int) = (c.toNat : Int) := rfl
          omega
        simp only [scanNumbers, hd, if_true]
        exact ih ns (buf ++ [c]) neg false true hgrow
      · simp only [scanNumbers, hd, if_false, Bool.false_eq_true]
        rw [hflush]

/-- Witness for C2's universally quantified parts, at the boundary run
`"2147483648"`. -/
theorem parse_numbers_i32_witness :
    parseNumberTok
        ['2', '1', '4', '7', '4', '8', '3', '6', '4', '8'] false = none ∧
    scanNumbers [] []
        ['2', '1', '4', '7', '4', '8', '3', '6', '4', '8'] false true true =
      none := by
  constructor
  · have h := parse_numbers_i32.2.2.1
      ['2', '1', '4', '7', '4', '8', '3', '6', '4', '8'] false
      (by decide) (by decide)
    rw [h]
    decide
  · exact parse_numbers_i32.2.2.2 [] []
      ['2', '1', '4', '7', '4', '8', '3', '6', '4', '8'] false true true
      (by decide)

/-- Counterexample for C2 as stated: on `"2000000000/999999999)"` the
range-inference reconstruction value `2999999999` exceeds the 32-bit
signed range, yet the parse does not return "no result" — it returns a
range whose minimum is the wrapped value. -/
theorem parse_numbers_i32_counterexample :
    specReconstruct 2000000000 999999999 = 2999999999 ∧
    i32max < specReconstruct 2000000000 999999999 ∧
    parseNumbers asciiCC.isSpace "2000000000/999999999)".data =
      some ([], (-1294967297, 2000000000)) := by
  refine ⟨by decide, by decide, by decide⟩

/-! ## Claim C3: shorthand (partial) name synthesis -/

/-- C3 (confirmed).  First part: when the extractor finds fewer full
"bot" matches than `targetN` and the first full match starts at a
positive offset `i`, the shorthand tokens taken from the text before
the first match (`s.take i`) are synthesized into names with the token
as prefix and the first full match's suffix (and plural marker) copied,
and they are prepended — up to the deficit, preserving left-to-right
order — before the fully-matched names, with the shorthand flag set.
Second part: whenever `parse_group` returns a group and the
`parse_names` call it makes (on the post after content-warning and
number parsing, named by the two equation hypotheses) reported
shorthand use, every robot's plural marker in the group is absent. -/
theorem parse_names_shorthand_synthesis :
    (∀ cc s targetN i g1 g2 g3 rest,
      findBot cc s = some (i, g1, g2, g3, rest) →
      (⟨g1, g2, g3⟩ :: (collectMore cc (targetN - 1) rest).1 :
          List RobotName).length < targetN →
      0 < i →
      parseNames cc s targetN =
        some ((collectMore cc (targetN - 1) rest).2,
          ((shorthandToks cc (s.take i)).take
              (targetN -
                (⟨g1, g2, g3⟩ :: (collectMore cc (targetN - 1) rest).1 :
                  List RobotName).length)).map
            (fun t => (⟨t, g2, g3⟩ : RobotName)) ++
            (⟨g1, g2, g3⟩ :: (collectMore cc (targetN - 1) rest).1), true)) ∧
    (∀ cc text g s2 lo hi s3 names,
      parseNumbers cc.isSpace (parseCw cc (trimStart cc.isSpace text)).1 =
        some (s2, (lo, hi)) →
      parseNames cc s2 (min (numNumbers lo hi) maxGroupSize) =
        some (s3, (names, true)) →
      parseGroup cc text = some g →
      g.robots.all (fun r => r.name.plural.isNone) = true) := by
  constructor
  · intro cc s targetN i g1 g2 g3 rest hfind hlen hpos
    have h0 : targetN ≠ 0 := by
      intro h
      rw [h] at hlen
      omega
    unfold parseNames
    rw [if_neg h0, hfind]
    simp only []
    have hlen1 : (collectMore cc (targetN - 1) rest).1.length + 1 < targetN := by
      simpa using hlen
    have hcond : (decide
        ((⟨g1, g2, g3⟩ :: (collectMore cc (targetN - 1) rest).1 :
          List RobotName).length < targetN) && decide (0 < i)) = true := by
      simp [hlen1, hpos]
    rw [hcond]
    simp only [if_true]
    unfold shortNames
    rw [List.map_take]
  · intro cc text g s2 lo hi s3 names heq1 heq2 hg
    unfold parseGroup at hg
    dsimp only [] at hg
    rw [heq1, Option.some_bind, heq2, Option.map_some'] at hg
    simp only [Option.some.injEq] at hg
    rw [← hg]
    simp only [if_true, List.all_eq_true]
    intro x hx
    rw [List.mem_map] at hx
    obtain ⟨p, -, rfl⟩ := hx
    rfl

/-- Witness for C3: the specification's own example
`"558/9) Salt- and Pepperbots. Bring you salt and pepper."`.
`parse_names` synthesizes `Salt` (copying `Pepper`'s suffix and plural
marker) and prepends it; `parse_group` clears the plural marker on both
robots. -/
theorem parse_names_shorthand_synthesis_witness :
    parseNames asciiCC "Salt- and Pepperbots. Bring you salt and pepper.".data
        2 =
      some (". Bring you salt and pepper.".data,
        ([⟨"Salt".data, "bot".data, some "s".data⟩,
          ⟨"Pepper".data, "bot".data, some "s".data⟩] : List RobotName),
        true) ∧
    (parseGroup asciiCC
        "558/9) Salt- and Pepperbots. Bring you salt and pepper.".data).map
      (fun g => g.robots.all (fun r => r.name.plural.isNone)) = some true := by
  constructor
  · have h := parse_names_shorthand_synthesis.1 asciiCC
      "Salt- and Pepperbots. Bring you salt and pepper.".data 2 10
      "Pepper".data "bot".data (some "s".data)
      ". Bring you salt and pepper.".data rfl (by decide) (by decide)
    rw [h]
    rfl
  · have hg : parseGroup asciiCC
        "558/9) Salt- and Pepperbots. Bring you salt and pepper.".data =
        some { robots := [⟨558, ⟨"Salt".data, "bot".data, none⟩⟩,
                          ⟨559, ⟨"Pepper".data, "bot".data, none⟩⟩],
               body := "Bring you salt and pepper.".data, cw := none } := rfl
    have h := parse_names_shorthand_synthesis.2 asciiCC
      "558/9) Salt- and Pepperbots. Bring you salt and pepper.".data
      { robots := [⟨558, ⟨"Salt".data, "bot".data, none⟩⟩,
                   ⟨559, ⟨"Pepper".data, "bot".data, none⟩⟩],
        body := "Bring you salt and pepper.".data, cw := none }
      "Salt- and Pepperbots. Bring you salt and pepper.".data 558 559
      ". Bring you salt and pepper.".data
      ([⟨"Salt".data, "bot".data, some "s".data⟩,
        ⟨"Pepper".data, "bot".data, some "s".data⟩] : List RobotName)
      rfl rfl hg
    rw [hg, Option.map_some', h]

/-! ## Claims C4 and C5: sanitizer depth bound and text coalescing -/

theorem convNode_zero (n : GenNode) : convNode 0 n = Sum.inr [] := by
  cases n <;> rfl

theorem flatMap_convNode_zero (ns : List GenNode) :
    ns.flatMap (fun n => sumToList (convNode 0 n)) = [] := by
  induction ns with
  | nil => rfl
  | cons n ns ih =>
    rw [List.flatMap_cons, ih, convNode_zero]
    rfl

theorem convAll_prune : ∀ d ns, convAll d (pruneList d ns) = convAll d ns := by
  intro d
  induction d with
  | zero =>
    intro ns
    unfold convAll
    show coalesce (List.flatMap _ _) = coalesce (List.flatMap _ _)
    rw [flatMap_convNode_zero, flatMap_convNode_zero]
  | succ d ih =>
    intro ns
    unfold convAll
    congr 1
    unfold pruneList
    rw [List.flatMap_map]
    refine List.flatMap_congr (fun n _ => ?_)
    cases n with
    | document cs => rfl
    | doctype => rfl
    | text s => rfl
    | comment => rfl
    | pi => rfl
    | element nm a cs =>
      have hcs := ih cs
      unfold convAll at hcs
      show sumToList (convNode (d + 1) (.element nm a (pruneList d cs))) =
        sumToList (convNode (d + 1) (.element nm a cs))
      simp only [convNode]
      rw [hcs]

/-- C4 (confirmed).  The sanitizer's depth budget is decremented on each
recursive descent and a budget of zero drops the whole subtree; as a
consequence, deleting every source node at depth at least `d` (with the
converted sibling list at depth `0`, i.e. the fragment roots of
`MdonHtmlDoc::from_markup5ever_node` at depth `0`) leaves the output
unchanged — no output node originates from a source node at depth ≥ `d`
from the root. -/
theorem sanitizer_depth_bound :
    (∀ n, convNode 0 n = Sum.inr []) ∧
    (∀ d ns, convAll d (pruneList d ns) = convAll d ns) ∧
    (∀ d cs, fromM5Node (GenNode.document (pruneList d cs)) d =
      fromM5Node (GenNode.document cs) d) := by
  refine ⟨convNode_zero, convAll_prune, ?_⟩
  intro d cs
  show some (convAll d (pruneList d cs)) = some (convAll d cs)
  rw [convAll_prune]

theorem coalesceStep_adjTextFree (n : MdonHtmlNode) (acc : List MdonHtmlNode)
    (h : adjTextFree acc = true) :
    adjTextFree (coalesceStep n acc) = true := by
  cases n with
  | element t as cs =>
    cases acc with
    | nil => rfl
    | cons m rest =>
      show adjTextFree (.element t as cs :: m :: rest) = true
      simp only [adjTextFree, MdonHtmlNode.isText, Bool.false_and,
        Bool.not_false, Bool.true_and]
      exact h
  | text a =>
    cases acc with
    | nil => rfl
    | cons m rest =>
      cases m with
      | element t as cs =>
        show adjTextFree (.text a :: .element t as cs :: rest) = true
        simp only [adjTextFree, MdonHtmlNode.isText, Bool.and_false,
          Bool.not_false, Bool.true_and]
        exact h
      | text b =>
        show adjTextFree (.text (a ++ b) :: rest) = true
        cases rest with
        | nil => rfl
        | cons k rest2 =>
          simp only [adjTextFree, MdonHtmlNode.isText, Bool.true_and] at h ⊢
          exact h
  
theorem coalesce_adjTextFree (l : List MdonHtmlNode) :
    adjTextFree (coalesce l) = true := by
  induction l with
  | nil => rfl
  | cons n l ih =>
    show adjTextFree (coalesceStep n (coalesce l)) = true
    exact coalesceStep_adjTextFree n (coalesce l) ih

theorem coalesceStep_sanitized (n : MdonHtmlNode) (acc : List MdonHtmlNode)
    (hn : sanitizedB n = true) (hacc : sanitizedList acc = true) :
    sanitizedList (coalesceStep n acc) = true := by
  cases n with
  | element t as cs =>
    cases acc with
    | nil =>
      show sanitizedList [.element t as cs] = true
      simp only [sanitizedList, Bool.and_true]
      exact hn
    | cons m rest =>
      show sanitizedList (.element t as cs :: m :: rest) = true
      simp only [sanitizedList, Bool.and_eq_true] at hacc ⊢
      exact ⟨hn, hacc⟩
  | text a =>
    cases acc with
    | nil => rfl
    | cons m rest =>
      cases m with
      | element t as cs =>
        show sanitizedList (.text a :: .element t as cs :: rest) = true
        simp only [sanitizedList, Bool.and_eq_true] at hacc ⊢
        exact ⟨rfl, hacc⟩
      | text b =>
        show sanitizedList (.text (a ++ b) :: rest) = true
        simp only [sanitizedList, Bool.and_eq_true] at hacc ⊢
        exact ⟨rfl, hacc.2⟩

theorem coalesce_sanitized (l : List MdonHtmlNode)
    (h : sanitizedList l = true) : sanitizedList (coalesce l) = true := by
  induction l with
  | nil => rfl
  | cons n l ih =>
    simp only [sanitizedList, Bool.and_eq_true] at h
    show sanitizedList (coalesceStep n (coalesce l)) = true
    exact coalesceStep_sanitized n (coalesce l) h.1 (ih h.2)

theorem sanitizedList_append (l1 l2 : List MdonHtmlNode)
    (h1 : sanitizedList l1 = true) (h2 : sanitizedList l2 = true) :
    sanitizedList (l1 ++ l2) = true := by
  induction l1 with
  | nil => exact h2
  | cons n l ih =>
    simp only [sanitizedList, Bool.and_eq_true] at h1
    simp only [List.cons_append, sanitizedList, Bool.and_eq_true]
    exact ⟨h1.1, ih h1.2⟩

theorem convAll_sanitized : ∀ d ns, sanitizedList (convAll d ns) = true := by
  intro d
  induction d with
  | zero =>
    intro ns
    show sanitizedList (coalesce (List.flatMap _ _)) = true
    rw [flatMap_convNode_zero]
    rfl
  | succ d ih =>
    intro ns
    refine coalesce_sanitized _ ?_
    induction ns with
    | nil => rfl
    | cons n ns ihn =>
      rw [List.flatMap_cons]
      refine sanitizedList_append _ _ ?_ ihn
      cases n with
      | document cs => rfl
      | doctype => rfl
      | comment => rfl
      | pi => rfl
      | text s => rfl
      | element nm a cs =>
        show sanitizedList (sumToList (convNode (d + 1)
          (.element nm a cs))) = true
        have hcs : sanitizedList (convAll d cs) = true := ih cs
        have hadj : adjTextFree (convAll d cs) = true := coalesce_adjTextFree _
        unfold convAll at hcs hadj
        simp only [convNode]
        cases htag : tagOfString nm with
        | none =>
          show sanitizedList (coalesce (cs.flatMap _)) = true
          exact hcs
        | some tag =>
          show sanitizedList [.element tag _ (coalesce (cs.flatMap _))] = true
          simp only [sanitizedList, sanitizedB, Bool.and_eq_true,
            Bool.and_true]
          exact ⟨hadj, hcs⟩

/-- C5 (confirmed).  Every sibling list the sanitizer produces — the
document roots `convAll d ns` and, recursively, the children of every
output element (`sanitizedList`) — contains no two adjacent `Text`
nodes; and the coalescing iterator merges adjacent text nodes by string
concatenation in order (so text nodes brought into adjacency by
splicing an unwrapped element's children are merged as well). -/
theorem sanitizer_no_adjacent_text :
    (∀ d ns, adjTextFree (convAll d ns) = true ∧
      sanitizedList (convAll d ns) = true) ∧
    (∀ a b l, coalesce (.text a :: .text b :: l) =
      coalesce (.text (a ++ b) :: l)) := by
  constructor
  · intro d ns
    exact ⟨coalesce_adjTextFree _, convAll_sanitized d ns⟩
  · intro a b l
    show coalesceStep (.text a) (coalesceStep (.text b) (coalesce l)) =
      coalesceStep (.text (a ++ b)) (coalesce l)
    cases hl : coalesce l with
    | nil => rfl
    | cons m rest =>
      cases m with
      | element t as cs => rfl
      | text c =>
        show (MdonHtmlNode.text (a ++ (b ++ c)) :: rest) =
          (MdonHtmlNode.text ((a ++ b) ++ c) :: rest)
        rw [List.append_assoc]

/-! ## Claim C6: HTML escaping -/

theorem unescape_escape (l : List Char) : unescapeHtml (escapeHtml l) = l := by
  induction l with
  | nil => simp [escapeHtml, unescapeHtml]
  | cons c l ih =>
    have hflat : escapeHtml (c :: l) = escFrag c ++ escapeHtml l :=
      List.flatMap_cons c l escFrag
    rw [hflat]
    by_cases h1 : c = '&'
    · subst h1
      simp [escFrag, escapeChar, unescapeHtml, List.isPrefixOf, ih]
    by_cases h2 : c = '\n'
    · subst h2
      simp [escFrag, escapeChar, unescapeHtml, List.isPrefixOf, ih]
    by_cases h3 : c = '"'
    · subst h3
      simp [escFrag, escapeChar, unescapeHtml, List.isPrefixOf, ih]
    by_cases h4 : c = '\''
    · subst h4
      simp [escFrag, escapeChar, unescapeHtml, List.isPrefixOf, ih]
    by_cases h5 : c = '<'
    · subst h5
      simp [escFrag, escapeChar, unescapeHtml, List.isPrefixOf, ih]
    by_cases h6 : c = '>'
    · subst h6
      simp [escFrag, escapeChar, unescapeHtml, List.isPrefixOf, ih]
    · simp [escFrag, escapeChar, unescapeHtml, h1, h2, h3, h4, h5, h6, ih]

theorem escOk_escape (l : List Char) : escOk (escapeHtml l) = true := by
  induction l with
  | nil => simp [escapeHtml, escOk]
  | cons c l ih =>
    have hflat : escapeHtml (c :: l) = escFrag c ++ escapeHtml l :=
      List.flatMap_cons c l escFrag
    rw [hflat]
    by_cases h1 : c = '&'
    · subst h1
      simp [escFrag, escapeChar, escOk, isSpecialChar, escSeqs,
        List.isPrefixOf, ih]
    by_cases h2 : c = '\n'
    · subst h2
      simp [escFrag, escapeChar, escOk, isSpecialChar, escSeqs,
        List.isPrefixOf, ih]
    by_cases h3 : c = '"'
    · subst h3
      simp [escFrag, escapeChar, escOk, isSpecialChar, escSeqs,
        List.isPrefixOf, ih]
    by_cases h4 : c = '\''
    · subst h4
      simp [escFrag, escapeChar, escOk, isSpecialChar, escSeqs,
        List.isPrefixOf, ih]
    by_cases h5 : c = '<'
    · subst h5
      simp [escFrag, escapeChar, escOk, isSpecialChar, escSeqs,
        List.isPrefixOf, ih]
    by_cases h6 : c = '>'
    · subst h6
      simp [escFrag, escapeChar, escOk, isSpecialChar, escSeqs,
        List.isPrefixOf, ih]
    · simp [escFrag, escapeChar, escOk, isSpecialChar,
        h1, h2, h3, h4, h5, h6, ih]

/-- C6 (confirmed).  Serialization escapes exactly the six characters
`&`, newline, `"`, `'`, `<`, `>` (to `&amp;`, `&nbsp;`, `&quot;`,
`&apos;`, `&lt;`, `&gt;` respectively) and passes every other character
through unchanged; consequently the serialized form contains no literal
occurrence of those characters outside their escape sequences
(`escOk`), and decoding the escape sequences recovers the original text
exactly. -/
theorem escape_html_exact :
    (escapeChar '&' = some "&amp;".data ∧
     escapeChar '\n' = some "&nbsp;".data ∧
     escapeChar '"' = some "&quot;".data ∧
     escapeChar '\'' = some "&apos;".data ∧
     escapeChar '<' = some "&lt;".data ∧
     escapeChar '>' = some "&gt;".data) ∧
    (∀ c, ¬(c = '&' ∨ c = '\n' ∨ c = '"' ∨ c = '\'' ∨ c = '<' ∨ c = '>') →
      escFrag c = [c]) ∧
    (∀ l, escOk (escapeHtml l) = true) ∧
    (∀ l, unescapeHtml (escapeHtml l) = l) := by
  refine ⟨⟨rfl, rfl, rfl, rfl, rfl, rfl⟩, ?_, escOk_escape, unescape_escape⟩
  intro c hc
  push_neg at hc
  obtain ⟨h1, h2, h3, h4, h5, h6⟩ := hc
  simp [escFrag, escapeChar, h1, h2, h3, h4, h5, h6]

/-- Witness for C6's pass-through part at the ordinary character `x`,
together with a round trip through the theorem's decoding part. -/
theorem escape_html_exact_witness :
    escFrag 'x' = ['x'] ∧
    unescapeHtml (escapeHtml "a<b&\nc".data) = "a<b&\nc".data := by
  exact ⟨escape_html_exact.2.1 'x' (by decide),
    escape_html_exact.2.2.2 "a<b&\nc".data⟩

/-! ## Claims C7, C8, C9: compact identifier -/

theorem char_valid_nat (c : Char) :
    c.toNat < 55296 ∨ (57343 < c.toNat ∧ c.toNat < 1114112) := by
  have hv := c.valid
  unfold UInt32.isValidChar at hv
  unfold Nat.isValidChar at hv
  exact hv

theorem utf8Bytes_length (c : Char) : (utf8Bytes c).length = utf8Len c := by
  unfold utf8Bytes utf8Len
  dsimp only []
  split_ifs <;> rfl

theorem identNameGo_eq_written (cap : Nat) (cs : List Char) :
    identNameGo cap cs = (writtenChars cap cs).flatMap utf8Bytes := by
  induction cs generalizing cap with
  | nil => rfl
  | cons c cs ih =>
    by_cases h : cap < utf8Len c
    · simp [identNameGo, writtenChars, h]
    · simp [identNameGo, writtenChars, h, ih]

theorem identNameGo_length (cap : Nat) (cs : List Char) :
    (identNameGo cap cs).length ≤ cap := by
  induction cs generalizing cap with
  | nil => exact Nat.zero_le cap
  | cons c cs ih =>
    by_cases h : cap < utf8Len c
    · simp [identNameGo, h]
    · simp only [identNameGo, h, if_false, List.length_append,
        utf8Bytes_length]
      have h2 := ih (cap - utf8Len c)
      omega

set_option maxRecDepth 4096 in
theorem utf8Decode_encode (ds : List Char) :
    utf8Decode (ds.flatMap utf8Bytes) = some ds := by
  induction ds with
  | nil => rfl
  | cons d ds ih =>
    rw [List.flatMap_cons]
    have hval := char_valid_nat d
    have hofNat : Char.ofNat d.toNat = d := Char.ofNat_toNat d
    by_cases h1 : d.toNat < 128
    · have hb : utf8Bytes d = [d.toNat] := by
        unfold utf8Bytes
        rw [if_pos h1]
      rw [hb]
      show utf8Decode (d.toNat :: ds.flatMap utf8Bytes) = some (d :: ds)
      unfold utf8Decode
      rw [if_pos h1, ih]
      simp [hofNat]
    by_cases h2 : d.toNat < 2048
    · have hb : utf8Bytes d = [192 + d.toNat / 64, 128 + d.toNat % 64] := by
        unfold utf8Bytes
        rw [if_neg h1, if_pos h2]
      rw [hb]
      show utf8Decode ((192 + d.toNat / 64) ::
        ((128 + d.toNat % 64) :: ds.flatMap utf8Bytes)) = some (d :: ds)
      unfold utf8Decode
      rw [if_neg (by omega), if_neg (by omega)]
      dsimp only []
      rw [if_pos (by omega), if_pos (by omega), if_pos (by omega), ih]
      have hv : (192 + d.toNat / 64 - 192) * 64 + (128 + d.toNat % 64 - 128) =
          d.toNat := by omega
      rw [hv, hofNat]
      rfl
    by_cases h3 : d.toNat < 65536
    · have hb : utf8Bytes d = [224 + d.toNat / 4096,
          128 + d.toNat / 64 % 64, 128 + d.toNat % 64] := by
        unfold utf8Bytes
        rw [if_neg h1, if_neg h2, if_pos h3]
      rw [hb]
      show utf8Decode ((224 + d.toNat / 4096) :: ((128 + d.toNat / 64 % 64) ::
        ((128 + d.toNat % 64) :: ds.flatMap utf8Bytes))) = some (d :: ds)
      unfold utf8Decode
      rw [if_neg (by omega), if_neg (by omega)]
      dsimp only []
      rw [if_neg (by omega)]
      rw [if_pos (by omega), if_pos (by omega), if_pos (by omega), ih]
      have hv : (224 + d.toNat / 4096 - 224) * 4096 +
          (128 + d.toNat / 64 % 64 - 128) * 64 + (128 + d.toNat % 64 - 128) =
          d.toNat := by omega
      rw [hv, hofNat]
      rfl
    · have hb : utf8Bytes d = [240 + d.toNat / 262144,
          128 + d.toNat / 4096 % 64, 128 + d.toNat / 64 % 64,
          128 + d.toNat % 64] := by
        unfold utf8Bytes
        rw [if_neg h1, if_neg h2, if_neg h3]
      rw [hb]
      show utf8Decode ((240 + d.toNat / 262144) ::
        ((128 + d.toNat / 4096 % 64) :: ((128 + d.toNat / 64 % 64) ::
        ((128 + d.toNat % 64) :: ds.flatMap utf8Bytes)))) = some (d :: ds)
      unfold utf8Decode
      rw [if_neg (by omega), if_neg (by omega)]
      dsimp only []
      rw [if_neg (by omega)]
      rw [if_neg (by omega)]
      rw [if_pos (by omega), if_pos (by omega), if_pos (by omega), ih]
      have hv : (240 + d.toNat / 262144 - 240) * 262144 +
          (128 + d.toNat / 4096 % 64 - 128) * 4096 +
          (128 + d.toNat / 64 % 64 - 128) * 64 + (128 + d.toNat % 64 - 128) =
          d.toNat := by omega
      rw [hv, hofNat]
      rfl

/-- C8 (confirmed).  For every Unicode model and input string the
normalizer returns a buffer and length with length at most the 16-byte
capacity, whose bytes are exactly the UTF-8 encodings of the
wholly-written code points (`writtenChars`) — it never writes a partial
multi-byte character — so the string view taken over those bytes is
valid UTF-8 and decodes to exactly those code points. -/
theorem ident_normalizer_safe (uo : UnicodeOps) (s : List Char) :
    (strToIdentName uo s).2 ≤ identCapacity ∧
    (strToIdentName uo s).1 =
      (writtenChars identCapacity (identStream uo s)).flatMap utf8Bytes ∧
    utf8Decode (strToIdentName uo s).1 =
      some (writtenChars identCapacity (identStream uo s)) := by
  refine ⟨identNameGo_length identCapacity (identStream uo s),
    identNameGo_eq_written identCapacity (identStream uo s), ?_⟩
  show utf8Decode (identNameGo identCapacity (identStream uo s)) = _
  rw [identNameGo_eq_written]
  exact utf8Decode_encode _

/-- C7 (confirmed).  Whenever `Ident::new(season, num, prefix)`
succeeds, decoding the identifier yields back exactly `season`, `num`,
and the normalizer's normalization of `prefix` (NFC, lowercased,
non-alphanumeric code points removed, truncated to the 16-byte capacity
at whole-code-point boundaries) — not `prefix` itself. -/
theorem ident_roundtrip (uo : UnicodeOps) (season : Nat) (num : Int)
    (pfx : List Char) (id : Ident)
    (h : Ident.new uo season num pfx = Except.ok id) :
    id.decode = ⟨season, num, normalizePrefix uo pfx⟩ := by
  unfold Ident.new at h
  dsimp only [] at h
  by_cases hc : 255 < (strToIdentName uo pfx).2 ∨ (strToIdentName uo pfx).2 = 0
  · rw [if_pos hc] at h
    exact absurd h (by simp)
  · rw [if_neg hc] at h
    simp only [Except.ok.injEq] at h
    rw [← h]
    unfold Ident.decode Ident.name
    dsimp only []
    show DecodedIdent.mk season num
      ((utf8Decode (identNameGo identCapacity (identStream uo pfx))).getD [])
      = _
    rw [identNameGo_eq_written, utf8Decode_encode]
    rfl

/-- Witness for C7: `Ident::new(1, 42, "Tea")` stores the bytes of
`"tea"` and decodes to `(1, 42, "tea")`, the normalization of the
prefix rather than the prefix itself. -/
theorem ident_roundtrip_witness :
    Ident.new asciiUO 1 42 "Tea".data = Except.ok ⟨1, 42, [116, 101, 97]⟩ ∧
    (⟨1, 42, [116, 101, 97]⟩ : Ident).decode = ⟨1, 42, "tea".data⟩ ∧
    normalizePrefix asciiUO "Tea".data ≠ "Tea".data := by
  refine ⟨rfl, ?_, by decide⟩
  have h := ident_roundtrip asciiUO 1 42 "Tea".data ⟨1, 42, [116, 101, 97]⟩ rfl
  rw [h]
  rfl

/-- C9 (confirmed).  `Ident::new` returns the named "invalid
identifier" error exactly when the normalization of the prefix yields
zero usable bytes or more bytes than the 16-byte capacity allows (the
check is on the normalized byte count, which must be nonzero and fit in
a single unsigned byte; since the normalizer truncates to capacity, the
over-capacity arm cannot fire and the error reduces to the zero-length
case).  The failure is a distinct `IdentError` value of an `Except`,
not a silent no-result. -/
theorem ident_error_iff (uo : UnicodeOps) (season : Nat) (num : Int)
    (pfx : List Char) :
    Ident.new uo season num pfx = Except.error ⟨⟩ ↔
      ((strToIdentName uo pfx).2 = 0 ∨
        identCapacity < (strToIdentName uo pfx).2) := by
  have hle : (strToIdentName uo pfx).2 ≤ identCapacity :=
    identNameGo_length identCapacity (identStream uo pfx)
  unfold Ident.new
  dsimp only []
  constructor
  · intro h
    by_cases hc : 255 < (strToIdentName uo pfx).2 ∨ (strToIdentName uo pfx).2 = 0
    · unfold identCapacity at hle ⊢
      omega
    · rw [if_neg hc] at h
      exact absurd h (by simp)
  · intro h
    have h0 : (strToIdentName uo pfx).2 = 0 := by
      unfold identCapacity at hle h
      omega
    rw [if_pos (Or.inr h0)]

/-! ## Claim C10: the storage identifier -/

theorem char_isUpper_decide (ch : Char) :
    ch.isUpper = (decide (65 ≤ ch.toNat) && decide (ch.toNat ≤ 90)) := rfl

theorem char_isLower_decide (ch : Char) :
    ch.isLower = (decide (97 ≤ ch.toNat) && decide (ch.toNat ≤ 122)) := rfl

theorem asciiLowerList_no_upper :
    ∀ c d, d ∈ asciiLowerList c → d.isUpper = false := by
  intro c d hd
  simp only [asciiLowerList, List.mem_singleton] at hd
  subst hd
  unfold asciiLowerChar
  by_cases hc : (65 ≤ c.toNat && c.toNat ≤ 90) = true
  · rw [if_pos hc]
    simp only [Bool.and_eq_true, decide_eq_true_eq] at hc
    have hvalid : Nat.isValidChar (c.toNat + 32) := Or.inl (by omega)
    have htn : (Char.ofNat (c.toNat + 32)).toNat = c.toNat + 32 := by
      simp only [Char.ofNat, hvalid, dif_pos]
      simp [Char.ofNatAux, Char.toNat]
      rfl
    rw [char_isUpper_decide, htn]
    simp only [Bool.and_eq_false_iff, decide_eq_false_iff_not]
    right
    omega
  · rw [if_neg hc]
    rw [char_isUpper_decide]
    exact eq_false_of_ne_true hc

/-- C10 (confirmed).  For every transliteration and lowercasing model
in which lowercasing never emits an ASCII uppercase letter (true of
Unicode lowercasing), every character of the storage identifier built
by `RobotName::ident` is an ASCII lowercase letter or an ASCII digit;
and, unlike the 16-byte packed identifier, the identifier has no upper
length bound (it has length `k` on a `k`-character ASCII prefix of
`a`s). -/
theorem robot_ident_charset :
    (∀ (unidec : List Char → List Char) (lower : Char → List Char)
        (n : RobotName),
      (∀ c d, d ∈ lower c → d.isUpper = false) →
      (robotNameIdent unidec lower n).all
        (fun c => c.isLower || c.isDigit) = true) ∧
    (∀ k, (robotNameIdent (fun l => l) asciiLowerList
        ⟨List.replicate k 'a', [], none⟩).length = k) := by
  constructor
  · intro unidec lower n hlow
    rw [List.all_eq_true]
    intro c hc
    unfold robotNameIdent at hc
    rw [List.mem_filter] at hc
    obtain ⟨hmem, halnum⟩ := hc
    rw [List.mem_flatMap] at hmem
    obtain ⟨c0, -, hc0⟩ := hmem
    have hup := hlow c0 c hc0
    unfold Char.isAlphanum at halnum
    unfold Char.isAlpha at halnum
    rw [hup] at halnum
    simpa using halnum
  · intro k
    induction k with
    | zero => rfl
    | succ k ih =>
      unfold robotNameIdent at ih ⊢
      dsimp only [] at ih ⊢
      rw [List.replicate_succ, List.flatMap_cons]
      rw [show asciiLowerList 'a' = ['a'] from rfl]
      rw [show (['a'] ++ (List.replicate k 'a').flatMap asciiLowerList).filter
          Char.isAlphanum =
        'a' :: ((List.replicate k 'a').flatMap asciiLowerList).filter
          Char.isAlphanum from rfl]
      rw [List.length_cons, ih]

/-- Witness for C10's character-set part at the ASCII model and the
prefix `"Tea99"`, whose identifier is `"tea99"`. -/
theorem robot_ident_charset_witness :
    (robotNameIdent (fun l => l) asciiLowerList
        ⟨"Tea99".data, "bot".data, none⟩).all
      (fun c => c.isLower || c.isDigit) = true ∧
    robotNameIdent (fun l => l) asciiLowerList
        ⟨"Tea99".data, "bot".data, none⟩ = "tea99".data := by
  refine ⟨robot_ident_charset.1 (fun l => l) asciiLowerList
    ⟨"Tea99".data, "bot".data, none⟩ asciiLowerList_no_upper, rfl⟩
